import Mathlib

/-!
Verification of the post-processing pipeline of the CameraApp ML backend
(`backend/server.py`): YOLO detection decoding (`parse_yolo_output`),
greedy non-max suppression (`apply_nms`), box overlap (`compute_iou`),
and EfficientNet classification decoding (`parse_efficientnet_output`).

Real-valued tensor entries are modelled exactly: the detection path uses `ℚ`
(its arithmetic is order/field operations only), the classification path uses
`ℝ` because the softmax branch applies `Real.exp`.
-/

/-- An axis-aligned box in corner format, the `[x1, y1, x2, y2]` list of the
bbox list of the source `Detection`. -/
structure Box where
  x1 : ℚ
  y1 : ℚ
  x2 : ℚ
  y2 : ℚ
deriving DecidableEq, Repr

/-- The `Detection` response model: label, confidence, normalized bbox. -/
structure Detection where
  label : String
  confidence : ℚ
  bbox : Box
deriving DecidableEq, Repr

/-- One anchor row of the transposed YOLO output tensor `[8400, 84]`:
`cx, cy, w, h = detection[:4]` and `scores = detection[4:84]`. -/
structure Anchor where
  cx : ℚ
  cy : ℚ
  w : ℚ
  h : ℚ
  scores : List ℚ
deriving DecidableEq, Repr

/-- Label lookup: `labels[i] if i < len(labels) else f"class_{i}"`. -/
def getLabel (labels : List String) (i : ℕ) : String :=
  labels.getD i ("class_" ++ toString i)

/-- Embeds `np.max` of a list (junk value `0` on the empty list, where NumPy raises). -/
def listMax {α : Type} [LinearOrder α] [Zero α] : List α → α
  | [] => 0
  | x :: xs => xs.foldl max x

/-- Embeds `np.min` of a list (junk value `0` on the empty list, where NumPy raises). -/
def listMin {α : Type} [LinearOrder α] [Zero α] : List α → α
  | [] => 0
  | x :: xs => xs.foldl min x

/-- Helper for `np.argmax`: best value/index so far, next index, rest. -/
def argmaxFrom {α : Type} [LinearOrder α] : α → ℕ → ℕ → List α → ℕ
  | _, bi, _, [] => bi
  | bv, bi, i, x :: xs =>
    if bv < x then argmaxFrom x i (i + 1) xs else argmaxFrom bv bi (i + 1) xs

/-- Embeds `np.argmax`: index of the first occurrence of the maximum (0 on empty). -/
def argmaxList {α : Type} [LinearOrder α] : List α → ℕ
  | [] => 0
  | x :: xs => argmaxFrom x 0 1 xs

/-- Embeds `inter_area = max(0, x2 - x1) * max(0, y2 - y1)` with
`x1 = max(box1[0], box2[0])`, `x2 = min(box1[2], box2[2])`, etc. -/
def inter_area (box1 box2 : Box) : ℚ :=
  max 0 (min box1.x2 box2.x2 - max box1.x1 box2.x1) *
    max 0 (min box1.y2 box2.y2 - max box1.y1 box2.y1)

/-- Area of a corner-format box: `(box[2] - box[0]) * (box[3] - box[1])`. -/
def box_area (b : Box) : ℚ :=
  (b.x2 - b.x1) * (b.y2 - b.y1)

/-- Embeds `union_area = box1_area + box2_area - inter_area`. -/
def union_area (box1 box2 : Box) : ℚ :=
  box_area box1 + box_area box2 - inter_area box1 box2

/-- Embeds `compute_iou`: `inter_area / union_area if union_area > 0 else 0`. -/
def compute_iou (box1 box2 : Box) : ℚ :=
  if union_area box1 box2 > 0 then inter_area box1 box2 / union_area box1 box2
  else 0

/-- Two corner-format boxes are non-overlapping: they are separated along the
x-axis or along the y-axis. -/
def separatedBoxes (box1 box2 : Box) : Prop :=
  box1.x2 ≤ box2.x1 ∨ box2.x2 ≤ box1.x1 ∨ box1.y2 ≤ box2.y1 ∨ box2.y2 ≤ box1.y1

/-- One pass of the filter-and-convert loop body of the source for an anchor that
cleared the threshold: corner conversion by `/640`, one-sided clamps, label
resolution, confidence `max_score`. -/
def candidateOf (labels : List String) (a : Anchor) : Detection :=
  { label := getLabel labels (argmaxList a.scores)
    confidence := listMax a.scores
    bbox :=
      { x1 := max 0 ((a.cx - a.w / 2) / 640)
        y1 := max 0 ((a.cy - a.h / 2) / 640)
        x2 := min 1 ((a.cx + a.w / 2) / 640)
        y2 := min 1 ((a.cy + a.h / 2) / 640) } }

/-- The candidate list built by the anchor loop of `parse_yolo_output`:
anchors whose `max_score >= conf_threshold`, in order, converted to
`Detection`s. -/
def yoloCandidates (labels : List String) (output : List Anchor)
    (conf_threshold : ℚ) : List Detection :=
  (output.filter (fun a => decide (conf_threshold ≤ listMax a.scores))).map
    (candidateOf labels)

/-- The `while detections:` loop of `apply_nms`, recursion made structural on
a fuel argument: keep the head (highest confidence after the sort), drop every
remaining detection whose IOU with it is `≥ iou_threshold`, recurse on the
survivors. Each iteration consumes at least one detection, so fuel equal to
the list length (as supplied by `nmsKeep`) never runs out. -/
def nmsKeepFuel (iou_threshold : ℚ) : ℕ → List Detection → List Detection
  | _, [] => []
  | 0, _ :: _ => []
  | fuel + 1, best :: rest =>
    best ::
      nmsKeepFuel iou_threshold fuel
        (rest.filter (fun d => decide (compute_iou best.bbox d.bbox < iou_threshold)))

/-- The `while detections:` loop of `apply_nms`, started with enough fuel. -/
def nmsKeep (iou_threshold : ℚ) (detections : List Detection) : List Detection :=
  nmsKeepFuel iou_threshold detections.length detections

/-- Embeds `apply_nms`: stable sort by confidence descending, then the greedy keep
loop. (`sorted(..., key=confidence, reverse=True)` is a stable sort in Python;
`List.insertionSort` with `b.confidence ≤ a.confidence` is the same stable
descending order.) -/
def apply_nms (detections : List Detection) (iou_threshold : ℚ) : List Detection :=
  nmsKeep iou_threshold
    (List.insertionSort (fun a b => b.confidence ≤ a.confidence) detections)

/-- Embeds `parse_yolo_output`: threshold-filter the anchors, convert, suppress,
return the top 10. `orig_width`/`orig_height` are accepted but unused, as in
the source. -/
def parse_yolo_output (labels : List String) (output : List Anchor)
    (orig_width orig_height : ℚ) (conf_threshold iou_threshold : ℚ) :
    List Detection :=
  (apply_nms (yoloCandidates labels output conf_threshold) iou_threshold).take 10

/-- The descending-confidence order used by the sort in `apply_nms` is total. -/
instance : IsTotal Detection (fun a b => b.confidence ≤ a.confidence) :=
  ⟨fun a b => le_total b.confidence a.confidence⟩

/-- The descending-confidence order used by the sort in `apply_nms` is transitive. -/
instance : IsTrans Detection (fun a b => b.confidence ≤ a.confidence) :=
  ⟨fun _ _ _ h1 h2 => le_trans h2 h1⟩

/-- The `Classification` response model: label, confidence. Confidence is real
because the softmax branch of the decoder applies `Real.exp`. -/
structure Classification where
  label : String
  confidence : ℝ

/-- The classification output row `output[0]`: either a quantized `uint8`
vector or a float vector, matching the dtype test of the source. -/
inductive RawClsOutput where
  | quant (vals : List (Fin 256))
  | flt (vals : List ℝ)

/-- The dequantization step: `if scores.dtype == np.uint8` divide by 255. -/
noncomputable def toScores : RawClsOutput → List ℝ
  | .quant vals => vals.map (fun v => (v.val : ℝ) / 255)
  | .flt vals => vals

/-- The heuristic softmax gate of `parse_efficientnet_output`:
`if np.max(scores) > 1.0 or np.min(scores) < 0`, apply numerically-stable
softmax `exp(x - max) / sum`, otherwise pass the vector through. -/
noncomputable def softmaxGate (scores : List ℝ) : List ℝ :=
  if listMax scores > 1 ∨ listMin scores < 0 then
    (scores.map (fun x => Real.exp (x - listMax scores))).map
      (fun e => e / (scores.map (fun x => Real.exp (x - listMax scores))).sum)
  else scores

/-- Embeds `np.argsort(scores)`: indices ordered by ascending score. -/
noncomputable def argsortAsc (scores : List ℝ) : List ℕ :=
  (List.insertionSort (fun a b => a.2 ≤ b.2) scores.enum).map Prod.fst

/-- Embeds `np.argsort(scores)[-top_k:][::-1]`: the indices of the `top_k` largest
scores, descending (`l[-k:]` is `drop (length - k)`, `[::-1]` is `reverse`). -/
noncomputable def topIndices (scores : List ℝ) (top_k : ℕ) : List ℕ :=
  ((argsortAsc scores).drop ((argsortAsc scores).length - top_k)).reverse

/-- Embeds `parse_efficientnet_output`: dequantize if quantized, apply the softmax
gate, select the top-k indices and resolve labels with the `class_<id>`
fallback. -/
noncomputable def parse_efficientnet_output (output : RawClsOutput)
    (top_k : ℕ) (labels : List String) : List Classification :=
  (topIndices (softmaxGate (toScores output)) top_k).map
    (fun idx =>
      { label := getLabel labels idx
        confidence := (softmaxGate (toScores output)).getD idx 0 })

/-! ### Properties of `compute_iou` -/

theorem inter_area_nonneg (box1 box2 : Box) : 0 ≤ inter_area box1 box2 :=
  mul_nonneg (le_max_left 0 _) (le_max_left 0 _)

theorem inter_area_le_areas (box1 box2 : Box) (h : 0 < inter_area box1 box2) :
    inter_area box1 box2 ≤ box_area box1 ∧ inter_area box1 box2 ≤ box_area box2 := by
  unfold inter_area at *
  set ix := min box1.x2 box2.x2 - max box1.x1 box2.x1 with hix
  set iy := min box1.y2 box2.y2 - max box1.y1 box2.y1 with hiy
  have hx : 0 < max 0 ix := by
    rcases lt_or_le 0 (max 0 ix) with h' | h'
    · exact h'
    · exfalso
      have : max 0 ix = 0 := le_antisymm h' (le_max_left 0 ix)
      rw [this, zero_mul] at h
      exact lt_irrefl 0 h
  have hy : 0 < max 0 iy := by
    rcases lt_or_le 0 (max 0 iy) with h' | h'
    · exact h'
    · exfalso
      have : max 0 iy = 0 := le_antisymm h' (le_max_left 0 iy)
      rw [this, mul_zero] at h
      exact lt_irrefl 0 h
  have hxpos : 0 < ix := by
    rcases max_cases 0 ix with ⟨he, _⟩ | ⟨he, hlt⟩
    · rw [he] at hx; exact absurd hx (lt_irrefl 0)
    · rw [he] at hx; exact hx
  have hypos : 0 < iy := by
    rcases max_cases 0 iy with ⟨he, _⟩ | ⟨he, hlt⟩
    · rw [he] at hy; exact absurd hy (lt_irrefl 0)
    · rw [he] at hy; exact hy
  have hmx : max 0 ix = ix := max_eq_right (le_of_lt hxpos)
  have hmy : max 0 iy = iy := max_eq_right (le_of_lt hypos)
  rw [hmx, hmy]
  have h1x : ix ≤ box1.x2 - box1.x1 :=
    sub_le_sub (min_le_left _ _) (le_max_left _ _)
  have h2x : ix ≤ box2.x2 - box2.x1 :=
    sub_le_sub (min_le_right _ _) (le_max_right _ _)
  have h1y : iy ≤ box1.y2 - box1.y1 :=
    sub_le_sub (min_le_left _ _) (le_max_left _ _)
  have h2y : iy ≤ box2.y2 - box2.y1 :=
    sub_le_sub (min_le_right _ _) (le_max_right _ _)
  constructor
  · unfold box_area
    exact mul_le_mul h1x h1y (le_of_lt hypos) (le_trans (le_of_lt hxpos) h1x)
  · unfold box_area
    exact mul_le_mul h2x h2y (le_of_lt hypos) (le_trans (le_of_lt hxpos) h2x)

theorem inter_area_le_union (box1 box2 : Box) (h : 0 < union_area box1 box2) :
    inter_area box1 box2 ≤ union_area box1 box2 := by
  rcases eq_or_lt_of_le (inter_area_nonneg box1 box2) with hz | hpos
  · rw [← hz]; exact le_of_lt h
  · have ⟨h1, h2⟩ := inter_area_le_areas box1 box2 hpos
    unfold union_area at *
    linarith

theorem inter_area_eq_zero_of_separated (box1 box2 : Box)
    (h : separatedBoxes box1 box2) : inter_area box1 box2 = 0 := by
  unfold inter_area
  rcases h with h | h | h | h
  · have : min box1.x2 box2.x2 - max box1.x1 box2.x1 ≤ 0 :=
      sub_nonpos.mpr (le_trans (min_le_left _ _) (le_trans h (le_max_right _ _)))
    rw [max_eq_left this, zero_mul]
  · have : min box1.x2 box2.x2 - max box1.x1 box2.x1 ≤ 0 :=
      sub_nonpos.mpr (le_trans (min_le_right _ _) (le_trans h (le_max_left _ _)))
    rw [max_eq_left this, zero_mul]
  · have : min box1.y2 box2.y2 - max box1.y1 box2.y1 ≤ 0 :=
      sub_nonpos.mpr (le_trans (min_le_left _ _) (le_trans h (le_max_right _ _)))
    rw [max_eq_left this, mul_zero]
  · have : min box1.y2 box2.y2 - max box1.y1 box2.y1 ≤ 0 :=
      sub_nonpos.mpr (le_trans (min_le_right _ _) (le_trans h (le_max_left _ _)))
    rw [max_eq_left this, mul_zero]

theorem compute_iou_nonneg (box1 box2 : Box) : 0 ≤ compute_iou box1 box2 := by
  unfold compute_iou
  split
  · exact div_nonneg (inter_area_nonneg box1 box2) (le_of_lt (by assumption))
  · exact le_refl 0

theorem compute_iou_le_one (box1 box2 : Box) : compute_iou box1 box2 ≤ 1 := by
  unfold compute_iou
  split
  · exact (div_le_one (by assumption)).mpr (inter_area_le_union box1 box2 (by assumption))
  · exact zero_le_one

theorem compute_iou_self (b : Box) (hx : b.x1 < b.x2) (hy : b.y1 < b.y2) :
    compute_iou b b = 1 := by
  have hinter : inter_area b b = box_area b := by
    unfold inter_area box_area
    rw [min_self, min_self, max_self, max_self,
      max_eq_right (sub_nonneg.mpr (le_of_lt hx)),
      max_eq_right (sub_nonneg.mpr (le_of_lt hy))]
  have harea : 0 < box_area b :=
    mul_pos (sub_pos.mpr hx) (sub_pos.mpr hy)
  have hunion : union_area b b = box_area b := by
    unfold union_area; rw [hinter]; ring
  unfold compute_iou
  rw [hunion, hinter]
  rw [if_pos harea]
  exact div_self (ne_of_gt harea)

theorem compute_iou_separated (box1 box2 : Box) (h : separatedBoxes box1 box2) :
    compute_iou box1 box2 = 0 := by
  unfold compute_iou
  rw [inter_area_eq_zero_of_separated box1 box2 h]
  split
  · exact zero_div _
  · rfl

/-- C4: the function `compute_iou` always returns a value in `[0, 1]`; when the union is
`≤ 0` it returns `0` (no division by zero); a box with positive side lengths
against itself gives exactly `1`; two non-overlapping (separated) boxes give
exactly `0`. -/
theorem compute_iou_spec (box1 box2 : Box) :
    0 ≤ compute_iou box1 box2 ∧ compute_iou box1 box2 ≤ 1 ∧
    (union_area box1 box2 ≤ 0 → compute_iou box1 box2 = 0) ∧
    (box1.x1 < box1.x2 → box1.y1 < box1.y2 → compute_iou box1 box1 = 1) ∧
    (separatedBoxes box1 box2 → compute_iou box1 box2 = 0) := by
  refine ⟨compute_iou_nonneg box1 box2, compute_iou_le_one box1 box2, ?_,
    compute_iou_self box1, compute_iou_separated box1 box2⟩
  intro h
  unfold compute_iou
  rw [if_neg (not_lt.mpr h)]

/-- C4 witness: evaluating the concrete cases — the unit square against
itself has IOU `1`, the unit square against a separated square has IOU `0`,
and the degenerate zero-area box (union `≤ 0`) has IOU `0`. -/
theorem compute_iou_spec_witness :
    compute_iou ⟨0, 0, 1, 1⟩ ⟨0, 0, 1, 1⟩ = 1 ∧
    compute_iou ⟨0, 0, 1, 1⟩ ⟨2, 2, 3, 3⟩ = 0 ∧
    compute_iou ⟨0, 0, 0, 0⟩ ⟨0, 0, 0, 0⟩ = 0 :=
  ⟨(compute_iou_spec ⟨0, 0, 1, 1⟩ ⟨0, 0, 1, 1⟩).2.2.2.1 (by norm_num) (by norm_num),
   (compute_iou_spec ⟨0, 0, 1, 1⟩ ⟨2, 2, 3, 3⟩).2.2.2.2 (Or.inl (by norm_num)),
   (compute_iou_spec ⟨0, 0, 0, 0⟩ ⟨0, 0, 0, 0⟩).2.2.1
     (by norm_num [union_area, box_area, inter_area])⟩

/-! ### Properties of `apply_nms` -/

theorem nmsKeepFuel_congr (t : ℚ) :
    ∀ (f1 f2 : ℕ) (l : List Detection), l.length ≤ f1 → l.length ≤ f2 →
      nmsKeepFuel t f1 l = nmsKeepFuel t f2 l := by
  intro f1
  induction f1 with
  | zero =>
    intro f2 l h1 _
    have : l = [] := List.length_eq_zero.mp (Nat.le_zero.mp h1)
    subst this
    cases f2 <;> rfl
  | succ f1 ih =>
    intro f2 l h1 h2
    cases l with
    | nil => cases f2 <;> rfl
    | cons best rest =>
      cases f2 with
      | zero => exact absurd h2 (by simp)
      | succ f2 =>
        simp only [nmsKeepFuel]
        congr 1
        have hlen : (rest.filter
            (fun d => decide (compute_iou best.bbox d.bbox < t))).length ≤ rest.length :=
          List.length_filter_le _ _
        exact ih f2 _ (le_trans hlen (Nat.succ_le_succ_iff.mp h1))
          (le_trans hlen (Nat.succ_le_succ_iff.mp h2))

theorem nmsKeep_nil (t : ℚ) : nmsKeep t [] = [] := rfl

theorem nmsKeep_cons (t : ℚ) (best : Detection) (rest : List Detection) :
    nmsKeep t (best :: rest) =
      best ::
        nmsKeep t (rest.filter (fun d => decide (compute_iou best.bbox d.bbox < t))) := by
  unfold nmsKeep
  simp only [List.length_cons, nmsKeepFuel]
  congr 1
  exact nmsKeepFuel_congr t rest.length _ _ (List.length_filter_le _ _) (le_refl _)

theorem nmsKeepFuel_sublist (t : ℚ) :
    ∀ (fuel : ℕ) (l : List Detection), List.Sublist (nmsKeepFuel t fuel l) l := by
  intro fuel
  induction fuel with
  | zero =>
    intro l
    cases l <;> simp [nmsKeepFuel]
  | succ fuel ih =>
    intro l
    cases l with
    | nil => simp [nmsKeepFuel]
    | cons best rest =>
      simp only [nmsKeepFuel]
      exact List.Sublist.cons₂ best (List.Sublist.trans (ih _) (List.filter_sublist _))

theorem nmsKeep_sublist (t : ℚ) (l : List Detection) : List.Sublist (nmsKeep t l) l :=
  nmsKeepFuel_sublist t l.length l

/-- Every pair of detections kept by the greedy loop, in keep order, has
IOU strictly below the threshold. -/
theorem nmsKeepFuel_pairwise (t : ℚ) :
    ∀ (fuel : ℕ) (l : List Detection),
      (nmsKeepFuel t fuel l).Pairwise
        (fun a b => compute_iou a.bbox b.bbox < t) := by
  intro fuel
  induction fuel with
  | zero =>
    intro l
    cases l <;> simp [nmsKeepFuel]
  | succ fuel ih =>
    intro l
    cases l with
    | nil => simp [nmsKeepFuel]
    | cons best rest =>
      simp only [nmsKeepFuel]
      refine List.Pairwise.cons ?_ (ih _)
      intro d hd
      have hmem : d ∈ rest.filter (fun d => decide (compute_iou best.bbox d.bbox < t)) :=
        (nmsKeepFuel_sublist t fuel _).subset hd
      exact of_decide_eq_true (List.mem_filter.mp hmem).2

theorem nmsKeep_pairwise (t : ℚ) (l : List Detection) :
    (nmsKeep t l).Pairwise (fun a b => compute_iou a.bbox b.bbox < t) :=
  nmsKeepFuel_pairwise t l.length l

/-- The greedy loop is the identity on a list in which every (ordered) pair
is already below the IOU threshold. -/
theorem nmsKeep_of_pairwise (t : ℚ) :
    ∀ (l : List Detection),
      l.Pairwise (fun a b => compute_iou a.bbox b.bbox < t) → nmsKeep t l = l := by
  intro l
  induction l with
  | nil => intro _; rfl
  | cons best rest ih =>
    intro h
    rw [nmsKeep_cons]
    have hfilter : rest.filter (fun d => decide (compute_iou best.bbox d.bbox < t)) = rest :=
      List.filter_eq_self.mpr (fun d hd => decide_eq_true ((List.pairwise_cons.mp h).1 d hd))
    rw [hfilter, ih (List.pairwise_cons.mp h).2]

theorem inter_area_comm (box1 box2 : Box) : inter_area box1 box2 = inter_area box2 box1 := by
  unfold inter_area
  rw [min_comm box1.x2 box2.x2, max_comm box1.x1 box2.x1,
    min_comm box1.y2 box2.y2, max_comm box1.y1 box2.y1]

theorem union_area_comm (box1 box2 : Box) : union_area box1 box2 = union_area box2 box1 := by
  unfold union_area
  rw [inter_area_comm]
  ring

theorem compute_iou_comm (box1 box2 : Box) : compute_iou box1 box2 = compute_iou box2 box1 := by
  unfold compute_iou
  rw [inter_area_comm, union_area_comm]

/-- The output of `apply_nms` is sorted by non-increasing confidence. -/
theorem apply_nms_sorted (detections : List Detection) (t : ℚ) :
    (apply_nms detections t).Pairwise (fun a b => b.confidence ≤ a.confidence) := by
  have h : List.Sorted (fun a b => b.confidence ≤ a.confidence)
      (List.insertionSort (fun a b => b.confidence ≤ a.confidence) detections) :=
    List.sorted_insertionSort (fun a b => b.confidence ≤ a.confidence) detections
  exact List.Pairwise.sublist (nmsKeep_sublist t _) h

/-- Every detection returned by `apply_nms` is one of the input detections. -/
theorem apply_nms_mem (detections : List Detection) (t : ℚ) (d : Detection)
    (hd : d ∈ apply_nms detections t) : d ∈ detections :=
  (List.mem_insertionSort _).mp ((nmsKeep_sublist t _).subset hd)

/-- C3: after the Suppressor runs with threshold `t`, no two kept detections
have pairwise IOU `≥ t`: every pair of distinct kept detections has IOU
strictly below `t`, in both argument orders. -/
theorem apply_nms_no_pair_above_threshold (detections : List Detection) (t : ℚ) :
    (apply_nms detections t).Pairwise
      (fun a b => compute_iou a.bbox b.bbox < t ∧ compute_iou b.bbox a.bbox < t) := by
  refine List.Pairwise.imp ?_ (nmsKeep_pairwise t _)
  intro a b h
  exact ⟨h, by rw [compute_iou_comm]; exact h⟩

/-- C9: the Suppressor is idempotent — running `apply_nms` on its own output
with the same threshold returns that output unchanged, in the same order. -/
theorem apply_nms_idempotent (detections : List Detection) (t : ℚ) :
    apply_nms (apply_nms detections t) t = apply_nms detections t := by
  have hsorted : (apply_nms detections t).Pairwise
      (fun a b => b.confidence ≤ a.confidence) := apply_nms_sorted detections t
  have hpair : (apply_nms detections t).Pairwise
      (fun a b => compute_iou a.bbox b.bbox < t) := nmsKeep_pairwise t _
  show nmsKeep t (List.insertionSort _ (apply_nms detections t)) = apply_nms detections t
  rw [List.Sorted.insertionSort_eq hsorted]
  exact nmsKeep_of_pairwise t _ hpair

/-- Every detection returned by `parse_yolo_output` arises from an anchor of
the raw tensor whose best class score cleared the confidence threshold. -/
theorem mem_parse_yolo_output (labels : List String) (output : List Anchor)
    (ow oh ct it : ℚ) (d : Detection)
    (hd : d ∈ parse_yolo_output labels output ow oh ct it) :
    ∃ a ∈ output, ct ≤ listMax a.scores ∧ d = candidateOf labels a := by
  unfold parse_yolo_output at hd
  have h1 : d ∈ apply_nms (yoloCandidates labels output ct) it :=
    (List.take_sublist 10 _).subset hd
  have h2 : d ∈ yoloCandidates labels output ct := apply_nms_mem _ _ _ h1
  unfold yoloCandidates at h2
  rcases List.mem_map.mp h2 with ⟨a, ha, rfl⟩
  rcases List.mem_filter.mp ha with ⟨haout, hdec⟩
  exact ⟨a, haout, of_decide_eq_true hdec, rfl⟩

/-- C2: the decoder `parse_yolo_output` returns at most 10 detections, every returned
detection has confidence at least `conf_threshold`, and the returned
sequence is ordered by non-increasing confidence. -/
theorem parse_yolo_output_spec (labels : List String) (output : List Anchor)
    (ow oh ct it : ℚ) :
    (parse_yolo_output labels output ow oh ct it).length ≤ 10 ∧
    (∀ d ∈ parse_yolo_output labels output ow oh ct it, ct ≤ d.confidence) ∧
    (parse_yolo_output labels output ow oh ct it).Pairwise
      (fun a b => b.confidence ≤ a.confidence) := by
  refine ⟨?_, ?_, ?_⟩
  · unfold parse_yolo_output
    exact List.length_take_le 10 _
  · intro d hd
    rcases mem_parse_yolo_output _ _ _ _ _ _ _ hd with ⟨a, _, hct, rfl⟩
    exact hct
  · unfold parse_yolo_output
    exact List.Pairwise.sublist (List.take_sublist 10 _) (apply_nms_sorted _ _)

/-- Concrete evaluation: one in-range anchor at `(320,320)` of size `320`
with class score `1` decodes to a single detection with box
`(1/4, 1/4, 3/4, 3/4)`. -/
theorem parse_yolo_output_one_anchor_eval :
    parse_yolo_output [] [⟨320, 320, 320, 320, [1]⟩] 640 640 (1/4) (9/20) =
      [⟨"class_0", 1, ⟨1/4, 1/4, 3/4, 3/4⟩⟩] := by
  have hcand : candidateOf [] ⟨320, 320, 320, 320, [1]⟩ =
      ⟨"class_0", 1, ⟨1/4, 1/4, 3/4, 3/4⟩⟩ := by
    simp only [candidateOf, getLabel, listMax, argmaxList, argmaxFrom]
    norm_num
    rfl
  have hyc : yoloCandidates [] [⟨320, 320, 320, 320, [1]⟩] (1/4) =
      [⟨"class_0", 1, ⟨1/4, 1/4, 3/4, 3/4⟩⟩] := by
    simp only [yoloCandidates, List.filter, List.map]
    rw [show (decide ((1:ℚ)/4 ≤ listMax [1])) = true by norm_num [listMax]]
    simp [hcand]
  simp only [parse_yolo_output, apply_nms, hyc, List.insertionSort, List.orderedInsert,
    nmsKeep, nmsKeepFuel, List.length, List.filter, List.take]

/-- C2 witness: a tensor with one anchor of score `1` at threshold `1/4`
yields one detection of confidence `1 ≥ 1/4`, and the output length is
within 10. -/
theorem parse_yolo_output_spec_witness :
    (parse_yolo_output [] [⟨320, 320, 320, 320, [1]⟩] 640 640 (1/4) (9/20)).length ≤ 10 ∧
    (1/4 : ℚ) ≤ (⟨"class_0", 1, ⟨1/4, 1/4, 3/4, 3/4⟩⟩ : Detection).confidence := by
  refine ⟨(parse_yolo_output_spec [] [⟨320, 320, 320, 320, [1]⟩] 640 640 (1/4) (9/20)).1, ?_⟩
  exact (parse_yolo_output_spec [] [⟨320, 320, 320, 320, [1]⟩] 640 640 (1/4) (9/20)).2.1
    ⟨"class_0", 1, ⟨1/4, 1/4, 3/4, 3/4⟩⟩
    (by rw [parse_yolo_output_one_anchor_eval]; exact List.mem_singleton.mpr rfl)

/-- Concrete evaluation: an anchor centered at `(-640, 320)` with zero size
and class score `1` decodes to a detection whose box is `(0, 1/2, -1, 1/2)` —
`x2` is negative and lies left of `x1`. -/
theorem parse_yolo_output_neg_anchor_eval :
    parse_yolo_output [] [⟨-640, 320, 0, 0, [1]⟩] 640 640 (1/4) (9/20) =
      [⟨"class_0", 1, ⟨0, 1/2, -1, 1/2⟩⟩] := by
  have hcand : candidateOf [] ⟨-640, 320, 0, 0, [1]⟩ =
      ⟨"class_0", 1, ⟨0, 1/2, -1, 1/2⟩⟩ := by
    simp only [candidateOf, getLabel, listMax, argmaxList, argmaxFrom]
    norm_num
    rfl
  have hyc : yoloCandidates [] [⟨-640, 320, 0, 0, [1]⟩] (1/4) =
      [⟨"class_0", 1, ⟨0, 1/2, -1, 1/2⟩⟩] := by
    simp only [yoloCandidates, List.filter, List.map]
    rw [show (decide ((1:ℚ)/4 ≤ listMax [1])) = true by norm_num [listMax]]
    simp [hcand]
  simp only [parse_yolo_output, apply_nms, hyc, List.insertionSort, List.orderedInsert,
    nmsKeep, nmsKeepFuel, List.length, List.filter, List.take]

/-- C1 counterexample: the claim `0 ≤ x1 ≤ x2 ≤ 1 ∧ 0 ≤ y1 ≤ y2 ≤ 1` for
every returned box fails on the raw tensor with the single anchor
`(cx, cy, w, h) = (-640, 320, 0, 0)` and class score `1`: the returned box is
`(0, 1/2, -1, 1/2)`, whose `x2 = -1` is not `≥ x1 = 0` (nor `≥ 0`), because
the code floors only `x1, y1` at `0` and ceilings only `x2, y2` at `1`. -/
theorem parse_yolo_output_clamp_counterexample :
    ¬ ∀ d ∈ parse_yolo_output [] [⟨-640, 320, 0, 0, [1]⟩] 640 640 (1/4) (9/20),
        0 ≤ d.bbox.x1 ∧ d.bbox.x1 ≤ d.bbox.x2 ∧ d.bbox.x2 ≤ 1 ∧
        0 ≤ d.bbox.y1 ∧ d.bbox.y1 ≤ d.bbox.y2 ∧ d.bbox.y2 ≤ 1 := by
  intro h
  have hd := h ⟨"class_0", 1, ⟨0, 1/2, -1, 1/2⟩⟩
    (by rw [parse_yolo_output_neg_anchor_eval]; exact List.mem_singleton.mpr rfl)
  have : (0 : ℚ) ≤ -1 := le_trans hd.1 hd.2.1
  norm_num at this

/-- C1 (amended): every returned box satisfies the one-sided clamps
`0 ≤ x1`, `0 ≤ y1`, `x2 ≤ 1`, `y2 ≤ 1` unconditionally; the full chain
`0 ≤ x1 ≤ x2 ≤ 1` and `0 ≤ y1 ≤ y2 ≤ 1` holds provided every anchor has
nonnegative size and its raw corner box meets the `640 × 640` input square
(`0 ≤ cx + w/2`, `cx - w/2 ≤ 640`, and likewise for `y`). -/
theorem parse_yolo_output_clamped (labels : List String) (output : List Anchor)
    (ow oh ct it : ℚ) :
    (∀ d ∈ parse_yolo_output labels output ow oh ct it,
        0 ≤ d.bbox.x1 ∧ 0 ≤ d.bbox.y1 ∧ d.bbox.x2 ≤ 1 ∧ d.bbox.y2 ≤ 1) ∧
    ((∀ a ∈ output, 0 ≤ a.w ∧ 0 ≤ a.h ∧ 0 ≤ a.cx + a.w / 2 ∧ a.cx - a.w / 2 ≤ 640 ∧
        0 ≤ a.cy + a.h / 2 ∧ a.cy - a.h / 2 ≤ 640) →
      ∀ d ∈ parse_yolo_output labels output ow oh ct it,
        0 ≤ d.bbox.x1 ∧ d.bbox.x1 ≤ d.bbox.x2 ∧ d.bbox.x2 ≤ 1 ∧
        0 ≤ d.bbox.y1 ∧ d.bbox.y1 ≤ d.bbox.y2 ∧ d.bbox.y2 ≤ 1) := by
  constructor
  · intro d hd
    rcases mem_parse_yolo_output _ _ _ _ _ _ _ hd with ⟨a, _, _, rfl⟩
    exact ⟨le_max_left 0 _, le_max_left 0 _, min_le_left 1 _, min_le_left 1 _⟩
  · intro hanchor d hd
    rcases mem_parse_yolo_output _ _ _ _ _ _ _ hd with ⟨a, ha, _, rfl⟩
    rcases hanchor a ha with ⟨hw, hh, hx2, hx1, hy2, hy1⟩
    have h640 : (0 : ℚ) < 640 := by norm_num
    have hxraw : (a.cx - a.w / 2) / 640 ≤ (a.cx + a.w / 2) / 640 :=
      (div_le_div_iff_of_pos_right h640).mpr (by linarith)
    have hyraw : (a.cy - a.h / 2) / 640 ≤ (a.cy + a.h / 2) / 640 :=
      (div_le_div_iff_of_pos_right h640).mpr (by linarith)
    have hx2nn : (0 : ℚ) ≤ (a.cx + a.w / 2) / 640 := div_nonneg hx2 (le_of_lt h640)
    have hy2nn : (0 : ℚ) ≤ (a.cy + a.h / 2) / 640 := div_nonneg hy2 (le_of_lt h640)
    have hx1le : (a.cx - a.w / 2) / 640 ≤ 1 := by
      rw [div_le_one h640]; linarith
    have hy1le : (a.cy - a.h / 2) / 640 ≤ 1 := by
      rw [div_le_one h640]; linarith
    refine ⟨le_max_left 0 _, ?_, min_le_left 1 _, le_max_left 0 _, ?_, min_le_left 1 _⟩
    · exact max_le (le_min zero_le_one hx2nn) (le_min hx1le hxraw)
    · exact max_le (le_min zero_le_one hy2nn) (le_min hy1le hyraw)

/-- C1 (amended) witness: for the in-range anchor `(320, 320, 320, 320)` with
score `1`, the single returned box `(1/4, 1/4, 3/4, 3/4)` satisfies the full
chain `0 ≤ x1 ≤ x2 ≤ 1` and `0 ≤ y1 ≤ y2 ≤ 1`. -/
theorem parse_yolo_output_clamped_witness :
    0 ≤ (⟨"class_0", 1, ⟨1/4, 1/4, 3/4, 3/4⟩⟩ : Detection).bbox.x1 ∧
    (⟨"class_0", 1, ⟨1/4, 1/4, 3/4, 3/4⟩⟩ : Detection).bbox.x1 ≤
      (⟨"class_0", 1, ⟨1/4, 1/4, 3/4, 3/4⟩⟩ : Detection).bbox.x2 ∧
    (⟨"class_0", 1, ⟨1/4, 1/4, 3/4, 3/4⟩⟩ : Detection).bbox.x2 ≤ 1 ∧
    0 ≤ (⟨"class_0", 1, ⟨1/4, 1/4, 3/4, 3/4⟩⟩ : Detection).bbox.y1 ∧
    (⟨"class_0", 1, ⟨1/4, 1/4, 3/4, 3/4⟩⟩ : Detection).bbox.y1 ≤
      (⟨"class_0", 1, ⟨1/4, 1/4, 3/4, 3/4⟩⟩ : Detection).bbox.y2 ∧
    (⟨"class_0", 1, ⟨1/4, 1/4, 3/4, 3/4⟩⟩ : Detection).bbox.y2 ≤ 1 :=
  (parse_yolo_output_clamped [] [⟨320, 320, 320, 320, [1]⟩] 640 640 (1/4) (9/20)).2
    (by intro a ha; rw [List.mem_singleton] at ha; subst ha; norm_num)
    ⟨"class_0", 1, ⟨1/4, 1/4, 3/4, 3/4⟩⟩
    (by rw [parse_yolo_output_one_anchor_eval]; exact List.mem_singleton.mpr rfl)

/-- C6: the decoder `parse_yolo_output` does not depend on the original image
width/height arguments — two calls differing only in `orig_width` and
`orig_height` return identical detection lists (boxes are normalized solely
by the fixed model input size 640). -/
theorem parse_yolo_output_ignores_orig_size (labels : List String)
    (output : List Anchor) (ow oh ow' oh' ct it : ℚ) :
    parse_yolo_output labels output ow oh ct it =
      parse_yolo_output labels output ow' oh' ct it := rfl

/-- C7: when the best class score of every anchor is below `conf_threshold`, the
decoder returns the empty list (success with zero results), and `apply_nms`
on the empty list returns the empty list. -/
theorem parse_yolo_output_empty_when_below_threshold (labels : List String)
    (output : List Anchor) (ow oh ct it : ℚ)
    (h : ∀ a ∈ output, listMax a.scores < ct) :
    parse_yolo_output labels output ow oh ct it = [] ∧ apply_nms [] it = [] := by
  constructor
  · have hfilter : output.filter (fun a => decide (ct ≤ listMax a.scores)) = [] := by
      rw [List.filter_eq_nil_iff]
      intro a ha
      simpa using not_le.mpr (h a ha)
    unfold parse_yolo_output yoloCandidates
    rw [hfilter]
    rfl
  · rfl

/-- C7 witness: a single anchor whose only class score `1/10` is below the
threshold `1/4` yields the empty detection list. -/
theorem parse_yolo_output_empty_witness :
    parse_yolo_output [] [⟨0, 0, 0, 0, [1/10]⟩] 640 640 (1/4) (9/20) = [] ∧
    apply_nms [] (9/20) = [] :=
  parse_yolo_output_empty_when_below_threshold [] [⟨0, 0, 0, 0, [1/10]⟩] 640 640 (1/4) (9/20)
    (by intro a ha; rw [List.mem_singleton] at ha; subst ha; norm_num [listMax])

/-! ### Properties of `parse_efficientnet_output` -/

theorem foldl_max_le {α : Type} [LinearOrder α] (c : α) :
    ∀ (l : List α) (a : α), l.foldl max a ≤ c ↔ a ≤ c ∧ ∀ x ∈ l, x ≤ c := by
  intro l
  induction l with
  | nil => intro a; simp
  | cons x xs ih =>
    intro a
    simp only [List.foldl_cons, ih, max_le_iff, List.mem_cons]
    constructor
    · rintro ⟨⟨hac, hxc⟩, hall⟩
      exact ⟨hac, fun y hy => hy.elim (fun he => he ▸ hxc) (hall y)⟩
    · rintro ⟨hac, hall⟩
      exact ⟨⟨hac, hall x (Or.inl rfl)⟩, fun y hy => hall y (Or.inr hy)⟩

theorem le_foldl_min {α : Type} [LinearOrder α] (c : α) :
    ∀ (l : List α) (a : α), c ≤ l.foldl min a ↔ c ≤ a ∧ ∀ x ∈ l, c ≤ x := by
  intro l
  induction l with
  | nil => intro a; simp
  | cons x xs ih =>
    intro a
    simp only [List.foldl_cons, ih, le_min_iff, List.mem_cons]
    constructor
    · rintro ⟨⟨hac, hxc⟩, hall⟩
      exact ⟨hac, fun y hy => hy.elim (fun he => he ▸ hxc) (hall y)⟩
    · rintro ⟨hac, hall⟩
      exact ⟨⟨hac, hall x (Or.inl rfl)⟩, fun y hy => hall y (Or.inr hy)⟩

theorem listMax_le {α : Type} [LinearOrder α] [Zero α] (l : List α) (c : α)
    (h0 : (0 : α) ≤ c) (h : ∀ x ∈ l, x ≤ c) : listMax l ≤ c := by
  cases l with
  | nil => exact h0
  | cons x xs =>
    exact (foldl_max_le c xs x).mpr
      ⟨h x (List.mem_cons_self x xs), fun y hy => h y (List.mem_cons_of_mem x hy)⟩

theorem le_listMin {α : Type} [LinearOrder α] [Zero α] (l : List α) (c : α)
    (h0 : c ≤ (0 : α)) (h : ∀ x ∈ l, c ≤ x) : c ≤ listMin l := by
  cases l with
  | nil => exact h0
  | cons x xs =>
    exact (le_foldl_min c xs x).mpr
      ⟨h x (List.mem_cons_self x xs), fun y hy => h y (List.mem_cons_of_mem x hy)⟩

theorem sum_map_div (l : List ℝ) (c : ℝ) :
    (l.map (fun x => x / c)).sum = l.sum / c := by
  induction l with
  | nil => simp
  | cons x xs ih => simp [ih, add_div]

/-- On the softmax branch, the denominator — the sum of the shifted
exponentials — is strictly positive for a nonempty score vector. -/
theorem exp_shift_sum_pos (scores : List ℝ) (hne : scores ≠ []) :
    0 < (scores.map (fun x => Real.exp (x - listMax scores))).sum := by
  refine List.sum_pos _ ?_ ?_
  · intro e he
    rcases List.mem_map.mp he with ⟨x, _, rfl⟩
    exact Real.exp_pos _
  · simpa using hne

/-- C5: the heuristic softmax gate of `parse_efficientnet_output` — if all
scores lie in `[0, 1]` (`max ≤ 1` and `min ≥ 0`) the vector passes through
unchanged; otherwise the numerically-stable softmax
`exp(x - max) / sum` is applied and the resulting distribution sums to
exactly `1` (hence within the `1e-5` tolerance). -/
theorem softmaxGate_spec (scores : List ℝ) (hne : scores ≠ []) :
    (listMax scores ≤ 1 ∧ 0 ≤ listMin scores → softmaxGate scores = scores) ∧
    (listMax scores > 1 ∨ listMin scores < 0 → (softmaxGate scores).sum = 1) := by
  constructor
  · intro h
    unfold softmaxGate
    rw [if_neg]
    push_neg
    exact h
  · intro h
    unfold softmaxGate
    rw [if_pos h, sum_map_div]
    exact div_self (ne_of_gt (exp_shift_sum_pos scores hne))

/-- C5 witness: the probability-like vector `[1/2]` passes through
unchanged, and the logit-like vector `[2]` (max `> 1`) is softmax-normalized
to sum exactly `1`. -/
theorem softmaxGate_spec_witness :
    softmaxGate [(1 : ℝ)/2] = [(1 : ℝ)/2] ∧ (softmaxGate [(2 : ℝ)]).sum = 1 :=
  ⟨(softmaxGate_spec [(1 : ℝ)/2] (by simp)).1
      ⟨by norm_num [listMax, List.foldl], by norm_num [listMin, List.foldl]⟩,
   (softmaxGate_spec [(2 : ℝ)] (by simp)).2
      (Or.inl (by norm_num [listMax, List.foldl]))⟩

/-- C8: the decoder `parse_efficientnet_output` with `top_k = 3` on the score vector
`[0.1, 0.7, 0.05, 0.15]` returns exactly index 1 (confidence `0.7`), then
index 3 (confidence `0.15`), then index 0 (confidence `0.1`), with labels
resolved in that order. -/
theorem parse_efficientnet_output_top3 (labels : List String) :
    parse_efficientnet_output (.flt [0.1, 0.7, 0.05, 0.15]) 3 labels =
      [⟨getLabel labels 1, 0.7⟩, ⟨getLabel labels 3, 0.15⟩, ⟨getLabel labels 0, 0.1⟩] := by
  have hscores : toScores (.flt [(0.1 : ℝ), 0.7, 0.05, 0.15]) =
      [(0.1 : ℝ), 0.7, 0.05, 0.15] := rfl
  have hgate : softmaxGate [(0.1 : ℝ), 0.7, 0.05, 0.15] = [(0.1 : ℝ), 0.7, 0.05, 0.15] := by
    unfold softmaxGate
    rw [if_neg]
    push_neg
    constructor
    · norm_num [listMax, List.foldl]
    · norm_num [listMin, List.foldl]
  have hsort : argsortAsc [(0.1 : ℝ), 0.7, 0.05, 0.15] = [2, 0, 3, 1] := by
    unfold argsortAsc
    have henum : ([(0.1 : ℝ), 0.7, 0.05, 0.15].enum) =
        [(0, (0.1 : ℝ)), (1, 0.7), (2, 0.05), (3, 0.15)] := rfl
    rw [henum]
    norm_num [List.insertionSort, List.orderedInsert]
  have htop : topIndices [(0.1 : ℝ), 0.7, 0.05, 0.15] 3 = [1, 3, 0] := by
    unfold topIndices
    rw [hsort]
    rfl
  unfold parse_efficientnet_output
  rw [hscores, hgate, htop]
  simp [List.getD]

/-- Every index produced by `argsortAsc` addresses a valid position of the
score vector. -/
theorem mem_argsortAsc_lt (s : List ℝ) (idx : ℕ) (h : idx ∈ argsortAsc s) :
    idx < s.length := by
  unfold argsortAsc at h
  rcases List.mem_map.mp h with ⟨p, hp, rfl⟩
  have hpe : p ∈ s.enum := (List.perm_insertionSort _ _).subset hp
  have hq := List.mem_enum_iff_getElem?.mp hpe
  exact (List.getElem?_eq_some.mp hq).1

/-- C10: on a quantized (8-bit unsigned) classification output the
dequantized scores all lie in `[0, 1]`, so the softmax gate never fires —
the gate passes the dequantized vector through unchanged, and every returned
confidence is exactly a raw value divided by 255, never a softmax
probability. -/
theorem parse_efficientnet_quantized_passthrough (raw : List (Fin 256)) (k : ℕ)
    (labels : List String) :
    softmaxGate (toScores (.quant raw)) = toScores (.quant raw) ∧
    ∀ c ∈ parse_efficientnet_output (.quant raw) k labels,
      ∃ v ∈ raw, c.confidence = (v.val : ℝ) / 255 := by
  have hgate : softmaxGate (toScores (.quant raw)) = toScores (.quant raw) := by
    unfold softmaxGate
    rw [if_neg]
    push_neg
    constructor
    · apply listMax_le _ _ zero_le_one
      intro x hx
      simp only [toScores] at hx
      rcases List.mem_map.mp hx with ⟨v, _, rfl⟩
      rw [div_le_one (by norm_num : (0 : ℝ) < 255)]
      exact_mod_cast Nat.le_of_lt_succ v.isLt
    · apply le_listMin _ _ le_rfl
      intro x hx
      simp only [toScores] at hx
      rcases List.mem_map.mp hx with ⟨v, _, rfl⟩
      positivity
  refine ⟨hgate, ?_⟩
  intro c hc
  unfold parse_efficientnet_output at hc
  rw [hgate] at hc
  rcases List.mem_map.mp hc with ⟨idx, hidx, rfl⟩
  have hlt : idx < (toScores (.quant raw)).length := by
    refine mem_argsortAsc_lt _ _ ?_
    unfold topIndices at hidx
    exact List.drop_subset _ _ (List.mem_reverse.mp hidx)
  have hmem : (toScores (.quant raw)).getD idx 0 ∈ toScores (.quant raw) := by
    rw [List.getD_eq_getElem _ _ hlt]
    exact List.getElem_mem hlt
  simp only [toScores] at hmem
  rcases List.mem_map.mp hmem with ⟨v, hv, he⟩
  exact ⟨v, hv, he.symm⟩

/-- C10 witness: the quantized output `[128]` decodes to the single
classification with confidence exactly `128 / 255`. -/
theorem parse_efficientnet_quantized_witness :
    ∃ v ∈ [(128 : Fin 256)],
      (⟨getLabel [] 0, (128 : ℝ) / 255⟩ : Classification).confidence =
        (v.val : ℝ) / 255 := by
  have heq : parse_efficientnet_output (.quant [(128 : Fin 256)]) 3 [] =
      [⟨getLabel [] 0, (128 : ℝ) / 255⟩] := by
    have hgate := (parse_efficientnet_quantized_passthrough [(128 : Fin 256)] 3 []).1
    have hts : toScores (.quant [(128 : Fin 256)]) = [(128 : ℝ) / 255] := by
      simp only [toScores, List.map]
      norm_num [show ((128 : Fin 256) : ℕ) = 128 from rfl]
    unfold parse_efficientnet_output
    rw [hgate, hts]
    norm_num [topIndices, argsortAsc, List.insertionSort, List.orderedInsert, List.getD]
  exact (parse_efficientnet_quantized_passthrough [(128 : Fin 256)] 3 []).2
    ⟨getLabel [] 0, (128 : ℝ) / 255⟩
    (by rw [heq]; exact List.mem_singleton.mpr rfl)
